import Mathlib

/-!
Verification development for the angular-permission-ui authorization core.

The definitions below are a shallow embedding of:
  * `src/src/permission-ui/authorization/StateAuthorization.js`
    (`PermStateAuthorization`: `resolveExceptStatePermissionMap`,
    `resolveOnlyStatePermissionMap`, `resolveStatePermissionMap`),
  * `src/unnamed/part_000` (`PermPermissionMap`: construction-time
    normalization of `only` / `except` / `redirectTo`,
    `resolvePropertyValidity`, `resolveRedirectState`),
  * `src/dist/angular-permission-ui.js` (`PermStatePermissionMap`:
    `StatePermissionMap.prototype.extendPermissionMap`).

Promise outcomes are modelled as settled values carrying an explicit settle
time (`Settled`), so that the within-group concurrency of `$q.any` (first
success to settle wins, last-settling rejection reported on total failure)
and the strictly sequential cross-group chaining built with `prev.finally`
can both be expressed.  Rejection reasons are `Option Name`: `$q.reject()`
with no argument is `none`, `$q.reject(privilegeName)` is `some name`.
-/

namespace Permission

/-- Privilege (role or permission) names. -/
abbrev Name := String

/-- Opaque token standing for the ambient `PermTransitionProperties`
object that is handed to user callables. -/
abbrev TransProps := String

/-- A settled promise for one privilege validation: the (relative) time at
which it settles, and its outcome — `.ok name` when the validation resolves
with the privilege name, `.error r` when it rejects with reason `r`. -/
structure Settled where
  time : Nat
  result : Except (Option Name) Name
deriving Repr

/-- The two external definition stores (`PermRoleStore`,
`PermPermissionStore`), as consumed by `resolvePropertyValidity`:
membership tests plus the settled outcome of `validateRole()` /
`validatePermission()` for every name. -/
structure Stores where
  hasRoleDefinition : Name → Bool
  validateRole : Name → Settled
  hasPermissionDefinition : Name → Bool
  validatePermission : Name → Settled

/-- `PermissionMap.prototype.resolvePropertyValidity` (part_000, lines
68–84): each name is looked up in the role store first, then the
permission store; an unregistered name yields an immediately settled
`$q.reject(privilegeName)`. -/
def resolvePropertyValidity (st : Stores) (property : List Name) : List Settled :=
  property.map fun privilegeName =>
    if st.hasRoleDefinition privilegeName then
      st.validateRole privilegeName
    else if st.hasPermissionDefinition privilegeName then
      st.validatePermission privilegeName
    else
      ⟨0, .error (some privilegeName)⟩

/-- The names for which `resolvePropertyValidity` executes
`$log.warn('Permission or role ... was not defined.')`: exactly the names
registered in neither store. -/
def unregisteredWarnings (st : Stores) (property : List Name) : List Name :=
  property.filter fun privilegeName =>
    !st.hasRoleDefinition privilegeName && !st.hasPermissionDefinition privilegeName

/-- Earliest-settling success among a list of settled validations
(ties broken towards the earlier list position, matching queue order for
same-tick settlements). -/
def firstSuccess (ps : List Settled) : Option Settled :=
  ps.foldl
    (fun acc p =>
      match p.result with
      | .ok _ =>
          match acc with
          | none => some p
          | some q => if p.time < q.time then some p else some q
      | .error _ => acc)
    none

/-- Last-settling element of a list of settled validations (ties broken
towards the later list position). -/
def lastSettled (ps : List Settled) : Option Settled :=
  ps.foldl
    (fun acc p =>
      match acc with
      | none => some p
      | some q => if p.time ≥ q.time then some p else some q)
    none

/-- Modelled from the spec: the `$q.any` combinator used by
`resolveStatePermissionMap` is provided by the host promise library and is
not part of src/.  Per §4.3/§9 of the spec it is a first-success race —
it resolves with the first validation that settles successfully, and if
every validation rejects it rejects with the last settled rejection. -/
def qAny (ps : List Settled) : Settled :=
  match firstSuccess ps with
  | some s => s
  | none =>
      match lastSettled ps with
      | some f => f
      | none => ⟨0, .error none⟩

/-- Outcome of evaluating one group of privilege names: `$q.any` over
`map.resolvePropertyValidity(statePrivileges)` (StateAuthorization.js,
lines 125–133).  The subsequent `.then` that unwraps an array result is a
no-op here because store validations resolve with a single name. -/
def groupResult (st : Stores) (g : List Name) : Except (Option Name) Name :=
  (qAny (resolvePropertyValidity st g)).result

/-- `$q.all` over the chained per-group promises.  Because each group
promise is created inside the previous one's `finally` callback
(StateAuthorization.js, lines 122–137), the promises settle strictly in
list order, so `$q.all`'s rejection reason is the first rejection in list
order; it resolves with the in-order list of values only when every group
promise resolves. -/
def qAllSeq : List (Except (Option Name) Name) → Except (Option Name) (List Name)
  | [] => .ok []
  | .error e :: _ => .error e
  | .ok v :: rest =>
      match qAllSeq rest with
      | .ok vs => .ok (v :: vs)
      | .error e => .error e

/-- The composite access-rights map consumed by `PermStateAuthorization`
(a `StatePermissionMap`): `only` and `except` are ordered sequences of
groups, `redirectTo` is a redirection dictionary (addresses of function
objects, see the heap model below) or `undefined`. -/
structure StateMap where
  only : List (List Name)
  except : List (List Name)
  redirectTo : Option (List (String × Nat))

/-- `resolveStatePermissionMap` (StateAuthorization.js, lines 114–140):
an empty group sequence becomes the single promise `$q.reject()`;
otherwise each group yields one promise whose outcome is the group's
`$q.any` result, the promises settling in list order. -/
def resolveStatePermissionMap (st : Stores) (groups : List (List Name)) :
    List (Except (Option Name) Name) :=
  if groups.isEmpty then [.error none]
  else groups.map (groupResult st)

/-- `resolveOnlyStatePermissionMap` (StateAuthorization.js, lines 87–102):
empty `only` resolves the deferred with no value; otherwise `$q.all` over
the group promises — resolve with the collected values, or reject with
`$q.all`'s rejection reason. -/
def resolveOnlyStatePermissionMap (st : Stores) (m : StateMap) :
    Except (Option Name) (Option (List Name)) :=
  if m.only.isEmpty then .ok none
  else
    match qAllSeq (resolveStatePermissionMap st m.only) with
    | .ok vs => .ok (some vs)
    | .error e => .error e

/-- `resolveExceptStatePermissionMap` (StateAuthorization.js, lines
67–77): `$q.all` over the `except` group promises; if it resolves, the
deferred is rejected with `rejectedPermissions[0]` (the first group's
matched name); if it rejects, evaluation falls through to the `only`
phase. -/
def resolveExceptStatePermissionMap (st : Stores) (m : StateMap) :
    Except (Option Name) (Option (List Name)) :=
  match qAllSeq (resolveStatePermissionMap st m.except) with
  | .ok vs => .error vs.head?
  | .error _ => resolveOnlyStatePermissionMap st m

/-- `authorizeByPermissionMap` / `authorizeStatePermissionMap`
(StateAuthorization.js, lines 25–57): run the deny (`except`) phase, which
itself falls through to the allow (`only`) phase. -/
def authorizeMap (st : Stores) (m : StateMap) :
    Except (Option Name) (Option (List Name)) :=
  resolveExceptStatePermissionMap st m

/-- Timing view of the promise chain built by `resolveStatePermissionMap`
(lines 122–137): the chain starts from `$q.resolve()` settled at time `t`;
each group's per-name validation checks start inside the previous chain
promise's `finally` callback, i.e. exactly when the previous group
settles, and the group settles after its own `$q.any` duration.  Returns
the (start, settle) pair of every group. -/
def groupSchedule (st : Stores) (groups : List (List Name)) (t : Nat) :
    List (Nat × Nat) :=
  match groups with
  | [] => []
  | g :: gs =>
      let settle := t + (qAny (resolvePropertyValidity st g)).time
      (t, settle) :: groupSchedule st gs settle

/-- Raw value of the `only` / `except` field of a user-supplied policy
object, as dispatched on by `normalizeOnlyAndExceptProperty` (part_000,
lines 127–141): a string, an array of names, a callable (whose return
value is again such a raw value), or anything else (`undefined`,
objects, ...). -/
inductive PropInput where
  | str (s : String)
  | arr (xs : List String)
  | func (f : TransProps → PropInput)
  | other

/-- `normalizeOnlyAndExceptProperty` (part_000, lines 127–141): a string
becomes a one-element array, an array is returned unchanged, a callable is
applied once to the ambient `PermTransitionProperties` and its return
value is returned as-is (the source performs no further normalization on
it), and anything else becomes the empty array. -/
def normalizeOnlyAndExceptProperty (t : TransProps) : PropInput → PropInput
  | .str s => .arr [s]
  | .arr xs => .arr xs
  | .func f => f t
  | .other => .arr []

/-! ### The `redirectTo` normalization (part_000, lines 143–306)

JavaScript function objects are mutable (normalization attaches an
`$inject` annotation in place), so function values are modelled as
addresses into an explicit heap of function objects.  Annotated-array
injectables (`['dep', fn]`) behave exactly like function objects whose
`$inject` is already set, and are modelled as such. -/

/-- A JavaScript value as far as the redirect machinery distinguishes
them: `undefined`, a string, a function object (by heap address), an
object (ordered field list), or any other primitive. -/
inductive JsV where
  | undefinedV
  | str (s : String)
  | funcRef (a : Nat)
  | obj (fields : List (String × JsV))
  | other

/-- A function object on the heap: its behaviour when invoked by
`$injector.invoke` with the `rejectedPermission` and
`transitionProperties` locals, and its `$inject` annotation. -/
structure FuncObj where
  code : Name → TransProps → JsV
  inject : Option (List String)

/-- Function-object heap; addresses are list indices. -/
abbrev Heap := List FuncObj

/-- Redirection dictionary: ordered association list from privilege name
(or `"default"`) to the heap address of the resolver function. -/
abbrev RedirectDict := List (String × Nat)

/-- Property read `fields.k` on an object (missing field reads as
`undefined`). -/
def jsGet (fields : List (String × JsV)) (k : String) : JsV :=
  ((fields.find? (fun p => p.1 = k)).map (fun p => p.2)).getD .undefinedV

/-- `angular.isDefined`: everything except `undefined`. -/
def isDefJs : JsV → Bool
  | .undefinedV => false
  | _ => true

/-- `isInjectable` (part_000, lines 282–284): true for annotated-array
injectables and for function objects carrying an `$inject` array — i.e.
for function objects whose modelled `inject` field is set. -/
def isInjectable (h : Heap) : JsV → Bool
  | .funcRef a => ((h[a]?).map (fun f => f.inject.isSome)).getD false
  | _ => false

/-- Attach `$inject = ['rejectedPermission', 'transitionProperties']` to
the function object at address `a`, in place. -/
def setInject (h : Heap) (a : Nat) : Heap :=
  match h[a]? with
  | some f => h.set a { f with inject := some ["rejectedPermission", "transitionProperties"] }
  | none => h

/-- Allocate a fresh function object, returning its address. -/
def alloc (h : Heap) (f : FuncObj) : Nat × Heap :=
  (h.length, h ++ [f])

/-- Assignment `d[k] = v` on a dictionary modelled as an ordered
association list (JavaScript objects have unique keys): overwrite the
binding if the key is present, else append a new binding. -/
def setKey (d : RedirectDict) (kv : String × Nat) : RedirectDict :=
  match d with
  | [] => [kv]
  | p :: rest => if p.1 = kv.1 then kv :: rest else p :: setKey rest kv

/-- Dictionary lookup (first binding of the key). -/
def aLookup (d : RedirectDict) (k : String) : Option Nat :=
  ((d.find? (fun p => p.1 = k)).map (fun p => p.2))

/-- `normalizeStringRedirectionRule` (part_000, lines 186–194): allocate a
closure returning `{state: redirectTo}` under the `default` key. -/
def normalizeStringRedirectionRule (h : Heap) (s : String) : RedirectDict × Heap :=
  let (a, h') := alloc h ⟨fun _ _ => .obj [("state", .str s)], none⟩
  ([("default", a)], h')

/-- `normalizeObjectSingleRedirectionRule` (part_000, lines 218–226):
allocate a closure returning the supplied object itself under the
`default` key. -/
def normalizeObjectSingleRedirectionRule (h : Heap) (fields : List (String × JsV)) :
    RedirectDict × Heap :=
  let (a, h') := alloc h ⟨fun _ _ => .obj fields, none⟩
  ([("default", a)], h')

/-- `normalizeFunctionRedirectionRule` (part_000, lines 295–306): the
caller's function object itself becomes the `default` entry; when it is
not already injectable, `$inject` is attached to it in place. -/
def normalizeFunctionRedirectionRule (h : Heap) (a : Nat) : RedirectDict × Heap :=
  if isInjectable h (.funcRef a) then
    ([("default", a)], h)
  else
    ([("default", a)], setInject h a)

/-- `normalizeObjectMultipleRedirectionRule` (part_000, lines 250–271):
`angular.forEach` over the entries; injectables and functions are stored
as-is (plain functions additionally get `$inject` attached in place),
objects and strings are wrapped in fresh closures, anything else is
silently skipped. -/
def normalizeObjectMultipleRedirectionRule (h : Heap) (fields : List (String × JsV)) :
    RedirectDict × Heap :=
  fields.foldl
    (fun (acc : RedirectDict × Heap) kv =>
      let (d, hh) := acc
      match kv.2 with
      | .funcRef a =>
          if isInjectable hh (.funcRef a) then (setKey d (kv.1, a), hh)
          else (setKey d (kv.1, a), setInject hh a)
      | .obj fs =>
          let (a, hh') := alloc hh ⟨fun _ _ => .obj fs, none⟩
          (setKey d (kv.1, a), hh')
      | .str s =>
          let (a, hh') := alloc hh ⟨fun _ _ => .obj [("state", .str s)], none⟩
          (setKey d (kv.1, a), hh')
      | _ => (d, hh))
    ([], h)

/-- The `ReferenceError('When used "redirectTo" as object, property
"default" must be defined')` thrown at construction time — the spec's
`ConfigurationError`. -/
inductive ConfigErr where
  | mustDefineDefault
deriving Repr, DecidableEq

/-- `normalizeRedirectToProperty` (part_000, lines 153–175): dispatch on
the shape of the user-supplied `redirectTo`.  A string, an injectable or
function, an object with a `state` field, and an object with a `default`
field each produce a dictionary; any other object shape throws; any other
value (in particular `undefined`, the absent-property case) is returned
unchanged — so the constructed map's `redirectTo` is then *not* a
dictionary, which is modelled as `none`. -/
def normalizeRedirectToProperty (h : Heap) (v : JsV) :
    Except ConfigErr (Option RedirectDict × Heap) :=
  match v with
  | .str s =>
      let (d, h') := normalizeStringRedirectionRule h s
      .ok (some d, h')
  | .funcRef a =>
      let (d, h') := normalizeFunctionRedirectionRule h a
      .ok (some d, h')
  | .obj fields =>
      if isDefJs (jsGet fields "state") then
        let (d, h') := normalizeObjectSingleRedirectionRule h fields
        .ok (some d, h')
      else if isDefJs (jsGet fields "default") then
        let (d, h') := normalizeObjectMultipleRedirectionRule h fields
        .ok (some d, h')
      else
        .error .mustDefineDefault
  | _ => .ok (none, h)

/-- Outcome of `PermissionMap.prototype.resolveRedirectState`: a resolved
redirect target, a promise rejection (`$q.reject()`), or a synchronously
thrown `TypeError`. -/
inductive JsOutcome where
  | resolved (v : JsV)
  | rejectedQ
  | thrownTypeError

/-- The `.then` handler of the inner `resolveRedirectState` helper
(part_000, lines 103–115): wrap a string as `{state: result}`, pass an
object through unchanged, reject anything else (including
`undefined`). -/
def classifyRedirectResult (v : JsV) : JsOutcome :=
  match v with
  | .str s => .resolved (.obj [("state", .str s)])
  | .obj fs => .resolved (.obj fs)
  | _ => .rejectedQ

/-- The inner `resolveRedirectState` helper (part_000, lines 97–116):
invoke the resolver function with the `rejectedPermission` and
`transitionProperties` locals, then classify its result. -/
def invokeRedirectRule (h : Heap) (a : Nat) (rejected : Name) (t : TransProps) : JsOutcome :=
  match h[a]? with
  | some f => classifyRedirectResult (f.code rejected t)
  | none => .rejectedQ

/-- `PermissionMap.prototype.resolveRedirectState` (part_000, lines
48–58): read `this.redirectTo[name] || this.redirectTo['default']` and
either reject (entry undefined) or invoke the resolver.  When
`this.redirectTo` is itself `undefined` (absent `redirectTo` input), the
very first property read throws a `TypeError`. -/
def resolveRedirectState (h : Heap) (rt : Option RedirectDict) (rejected : Name)
    (t : TransProps) : JsOutcome :=
  match rt with
  | none => .thrownTypeError
  | some d =>
      match (aLookup d rejected).orElse (fun _ => aLookup d "default") with
      | none => .rejectedQ
      | some a => invokeRedirectRule h a rejected t

/-! ### The composite builder (`PermStatePermissionMap`,
dist/angular-permission-ui.js lines 442–501) -/

/-- The relevant fields of one ancestor's base `PermPermissionMap` after
construction: flat `only` / `except` name lists and the normalized
redirection dictionary (`none` when `redirectTo` was absent). -/
structure BaseMap where
  only : List Name
  except : List Name
  redirectTo : Option RedirectDict

/-- `angular.extend({}, dst, src)`: copy `dst`'s entries then overwrite
with `src`'s, key by key. -/
def aExtend (dst src : RedirectDict) : RedirectDict :=
  src.foldl setKey dst

/-- `StatePermissionMap.prototype.extendPermissionMap` (dist, lines
470–481): append the base map's non-empty `only` / `except` lists as one
further group each, and shallow-merge the redirection dictionaries with
the newer map's entries overriding. -/
def extendPermissionMap (s : StateMap) (pm : BaseMap) : StateMap :=
  { only := if pm.only.isEmpty then s.only else s.only ++ [pm.only]
    except := if pm.except.isEmpty then s.except else s.except ++ [pm.except]
    redirectTo :=
      match pm.redirectTo with
      | some d => some (aExtend (s.redirectTo.getD []) d)
      | none => s.redirectTo }

/-- The `StatePermissionMap` constructor (dist, lines 452–462): starting
from the empty prototype map, fold `extendPermissionMap` over the state
path's permission maps, ancestors first. -/
def buildStatePermissionMap (path : List BaseMap) : StateMap :=
  path.foldl extendPermissionMap ⟨[], [], none⟩

/-! ### Concrete instances used to evaluate the model -/

instance {ε α : Type} [DecidableEq ε] [DecidableEq α] : DecidableEq (Except ε α) := fun x y =>
  match x, y with
  | .ok a, .ok b =>
      if h : a = b then .isTrue (by rw [h]) else .isFalse (fun hh => h (Except.ok.inj hh))
  | .error a, .error b =>
      if h : a = b then .isTrue (by rw [h]) else .isFalse (fun hh => h (Except.error.inj hh))
  | .ok _, .error _ => .isFalse (fun hh => Except.noConfusion hh)
  | .error _, .ok _ => .isFalse (fun hh => Except.noConfusion hh)

/-- Stores in which no privilege name is registered at all. -/
def stNone : Stores :=
  ⟨fun _ => false, fun n => ⟨0, .error (some n)⟩, fun _ => false, fun n => ⟨0, .error (some n)⟩⟩

/-- Stores in which exactly the role `"x"` is registered and validates
(settling immediately); every other name is unregistered. -/
def stX : Stores :=
  ⟨fun n => n == "x", fun n => ⟨0, .ok n⟩, fun _ => false, fun n => ⟨0, .error (some n)⟩⟩

/-! ### Helper lemmas -/

theorem qAllSeq_ok_of_forall (rs : List (Except (Option Name) Name))
    (h : ∀ r ∈ rs, ∃ v, r = .ok v) :
    ∃ vs, qAllSeq rs = .ok vs ∧ rs = vs.map Except.ok := by
  induction rs with
  | nil => exact ⟨[], rfl, rfl⟩
  | cons r rest ih =>
      obtain ⟨v, hv⟩ := h r (by simp)
      obtain ⟨vs, hvs, hmap⟩ := ih (fun x hx => h x (by simp [hx]))
      subst hv
      exact ⟨v :: vs, by simp [qAllSeq, hvs], by simp [hmap]⟩

theorem qAllSeq_cons_ok (rest : List (Except (Option Name) Name)) (v₀ : Name)
    (h : ∀ r ∈ rest, ∃ v, r = .ok v) :
    ∃ vs, qAllSeq (.ok v₀ :: rest) = .ok (v₀ :: vs) := by
  obtain ⟨vs, hvs, _⟩ := qAllSeq_ok_of_forall rest h
  exact ⟨vs, by simp [qAllSeq, hvs]⟩

theorem qAllSeq_error_of_prefix_ok (rs₁ rs₂ : List (Except (Option Name) Name))
    (e : Option Name) (h : ∀ r ∈ rs₁, ∃ v, r = .ok v) :
    qAllSeq (rs₁ ++ .error e :: rs₂) = .error e := by
  induction rs₁ with
  | nil => simp [qAllSeq]
  | cons r rest ih =>
      obtain ⟨v, hv⟩ := h r (by simp)
      subst hv
      have hrest := ih (fun x hx => h x (by simp [hx]))
      rw [List.cons_append]
      simp [qAllSeq, hrest]

theorem forall_ok_of_qAllSeq_ok (rs : List (Except (Option Name) Name)) (vs : List Name)
    (h : qAllSeq rs = .ok vs) : ∀ r ∈ rs, ∃ v, r = .ok v := by
  induction rs generalizing vs with
  | nil => simp
  | cons r rest ih =>
      match r with
      | .error e => simp [qAllSeq] at h
      | .ok v =>
          cases hr : qAllSeq rest with
          | ok vs' =>
              intro x hx
              rcases List.mem_cons.mp hx with rfl | hx'
              · exact ⟨v, rfl⟩
              · exact ih vs' hr x hx'
          | error e => simp [qAllSeq, hr] at h

theorem qAllSeq_error_of_mem (rs : List (Except (Option Name) Name)) (e : Option Name)
    (h : Except.error e ∈ rs) : ∃ e', qAllSeq rs = .error e' := by
  induction rs with
  | nil => simp at h
  | cons r rest ih =>
      rcases List.mem_cons.mp h with rfl | h'
      · exact ⟨e, by simp [qAllSeq]⟩
      · match r with
        | .error e'' => exact ⟨e'', rfl⟩
        | .ok v =>
            obtain ⟨e', he'⟩ := ih h'
            exact ⟨e', by simp [qAllSeq, he']⟩

theorem groupSchedule_length (st : Stores) (groups : List (List Name)) (t : Nat) :
    (groupSchedule st groups t).length = groups.length := by
  induction groups generalizing t with
  | nil => rfl
  | cons g gs ih => simp [groupSchedule, ih]

/-! ### Claims -/

/-- C1, counterexample.  With `only = [["a"], ["b"]]` and both names
unregistered, every group fails, yet `authorize` rejects with `"a"` —
the failing name of `only`'s *first* group — not with `"b"`, the claimed
last group's failure. -/
theorem c1_counterexample :
    authorizeMap stNone ⟨[["a"], ["b"]], [], none⟩ = .error (some "a")
    ∧ authorizeMap stNone ⟨[["a"], ["b"]], [], none⟩ ≠ .error (some "b") := by
  exact ⟨by decide, by decide⟩

/-- C1, amended.  The group-sequence evaluation consumed by `authorize`
(`$q.all` over the sequentially chained group promises) fails as soon as
*any* group fails — whatever succeeded before it and whatever follows it
— and reports the *first* failing group's failure (first conjunct: the
allow sequence is `pre ++ gf :: post` with every group of `pre`
succeeding and `gf` failing with reason `e₀`; `authorize` rejects with
`e₀` no matter what `post` contains); and it succeeds *only if* every
group succeeds (second conjunct: acceptance implies every allow group
succeeded; third conjunct: all-success implies acceptance). -/
theorem c1_amended :
    (∀ (st : Stores) (pre post : List (List Name)) (gf : List Name)
        (exc : List (List Name)) (rt : Option RedirectDict) (e₀ : Option Name),
        (∃ e, qAllSeq (resolveStatePermissionMap st exc) = .error e) →
        (∀ g ∈ pre, ∃ v, groupResult st g = .ok v) →
        groupResult st gf = .error e₀ →
        authorizeMap st ⟨pre ++ gf :: post, exc, rt⟩ = .error e₀)
    ∧ (∀ (st : Stores) (m : StateMap) (vs : Option (List Name)),
        (∃ e, qAllSeq (resolveStatePermissionMap st m.except) = .error e) →
        authorizeMap st m = .ok vs →
        ∀ g ∈ m.only, ∃ v, groupResult st g = .ok v)
    ∧ (∀ (st : Stores) (m : StateMap),
        (∃ e, qAllSeq (resolveStatePermissionMap st m.except) = .error e) →
        (∀ g ∈ m.only, ∃ v, groupResult st g = .ok v) →
        ∃ vs, authorizeMap st m = .ok vs) := by
  refine ⟨?_, ?_, ?_⟩
  · intro st pre post gf exc rt e₀ hexc hpre h₀
    obtain ⟨e, he⟩ := hexc
    have hprem : ∀ r ∈ pre.map (groupResult st), ∃ v, r = .ok v := by
      intro r hr
      simp only [List.mem_map] at hr
      obtain ⟨g, hg, rfl⟩ := hr
      exact hpre g hg
    have hq : qAllSeq (resolveStatePermissionMap st (pre ++ gf :: post)) = .error e₀ := by
      rw [resolveStatePermissionMap, if_neg (by simp), List.map_append, List.map_cons, h₀]
      exact qAllSeq_error_of_prefix_ok _ _ e₀ hprem
    simp only [authorizeMap, resolveExceptStatePermissionMap, he]
    simp [resolveOnlyStatePermissionMap, hq]
  · intro st m vs hexc hacc g hg
    obtain ⟨e, he⟩ := hexc
    simp only [authorizeMap, resolveExceptStatePermissionMap, he] at hacc
    by_cases hO : m.only.isEmpty
    · rw [List.isEmpty_iff.mp hO] at hg
      cases hg
    · simp only [resolveOnlyStatePermissionMap, hO, Bool.false_eq_true,
        if_false, resolveStatePermissionMap] at hacc
      cases hq : qAllSeq (m.only.map (groupResult st)) with
      | ok vs' =>
          exact forall_ok_of_qAllSeq_ok _ vs' hq (groupResult st g)
            (List.mem_map_of_mem (groupResult st) hg)
      | error e' => simp [hq] at hacc
  · intro st m hexc hall
    obtain ⟨e, he⟩ := hexc
    by_cases hO : m.only.isEmpty
    · exact ⟨none, by simp [authorizeMap, resolveExceptStatePermissionMap, he,
        resolveOnlyStatePermissionMap, hO]⟩
    · have hmap : ∀ r ∈ m.only.map (groupResult st), ∃ v, r = .ok v := by
        intro r hr
        simp only [List.mem_map] at hr
        obtain ⟨g, hg, rfl⟩ := hr
        exact hall g hg
      obtain ⟨vs, hvs, _⟩ := qAllSeq_ok_of_forall _ hmap
      refine ⟨some vs, ?_⟩
      simp only [authorizeMap, resolveExceptStatePermissionMap, he]
      simp [resolveOnlyStatePermissionMap, hO, resolveStatePermissionMap, hvs]

/-- C1 witness: under `stX`, with `only = [["x"], ["a"], ["b"]]` the
first group succeeds (`"x"` validates) and the second fails, so
`authorize` rejects with `"a"` — the first failing group's failure —
even though a further group follows. -/
theorem c1_amended_witness :
    groupResult stX ["a"] = .error (some "a")
    ∧ authorizeMap stX ⟨[["x"], ["a"], ["b"]], [], none⟩ = .error (some "a") :=
  ⟨by decide,
   c1_amended.1 stX [["x"]] [["b"]] ["a"] [] none (some "a") ⟨none, by decide⟩
     (by
        intro g hg
        rw [List.mem_singleton] at hg
        subst hg
        exact ⟨"x", by decide⟩)
     (by decide)⟩

/-- C2, counterexample.  The role `"x"` is registered and validates, and
`except = [["x"], ["y"]]` contains it; yet because the second deny group
fails (`"y"` is unregistered), the `$q.all` over the deny groups rejects,
evaluation falls through to the (empty) allow phase, and `authorize`
*accepts* instead of rejecting with `"x"`. -/
theorem c2_counterexample :
    authorizeMap stX ⟨[], [["x"], ["y"]], none⟩ = .ok none
    ∧ authorizeMap stX ⟨[], [["x"], ["y"]], none⟩ ≠ .error (some "x") := by
  exact ⟨by decide, by decide⟩

/-- C2, amended.  The deny phase runs first, and `authorize` rejects
from it — with the *first* deny group's matched privilege name,
regardless of the contents of `only` and without entering the allow
phase — exactly when *every* deny group evaluation succeeds: the first
conjunct proves that all-deny-groups-succeeding yields rejection with
the first group's matched name for arbitrary `only`; the second conjunct
proves that whenever *any* deny group fails, the overall result is
exactly the allow phase's result (universal fall-through, so one
validating deny group does not by itself cause rejection). -/
theorem c2_amended :
    (∀ (st : Stores) (g₀ : List Name) (gs onlyGroups : List (List Name))
        (rt : Option RedirectDict) (v₀ : Name),
        groupResult st g₀ = .ok v₀ →
        (∀ g ∈ gs, ∃ v, groupResult st g = .ok v) →
        authorizeMap st ⟨onlyGroups, g₀ :: gs, rt⟩ = .error (some v₀))
    ∧ (∀ (st : Stores) (m : StateMap) (g : List Name) (e : Option Name),
        g ∈ m.except → groupResult st g = .error e →
        authorizeMap st m = resolveOnlyStatePermissionMap st m) := by
  constructor
  · intro st g₀ gs onlyGroups rt v₀ h₀ hrest
    have hmap : ∀ r ∈ gs.map (groupResult st), ∃ v, r = .ok v := by
      intro r hr
      simp only [List.mem_map] at hr
      obtain ⟨g, hg, rfl⟩ := hr
      exact hrest g hg
    obtain ⟨vs, hvs⟩ := qAllSeq_cons_ok _ v₀ hmap
    simp [authorizeMap, resolveExceptStatePermissionMap, resolveStatePermissionMap, h₀, hvs]
  · intro st m g e hg hge
    have hne : ¬m.except.isEmpty := by
      cases hexc : m.except with
      | nil => rw [hexc] at hg; cases hg
      | cons a l => simp [hexc]
    have hmem : Except.error e ∈ resolveStatePermissionMap st m.except := by
      rw [resolveStatePermissionMap, if_neg (by simpa using hne), ← hge]
      exact List.mem_map_of_mem (groupResult st) hg
    obtain ⟨e', he'⟩ := qAllSeq_error_of_mem _ e hmem
    simp [authorizeMap, resolveExceptStatePermissionMap, he']

/-- C2 witness: with the validating role `"x"` as the sole deny group,
`authorize` rejects with `"x"` even though `only` would allow `"z"`;
and with `except = [["x"], ["y"]]`, where the group `["y"]` fails, the
overall result is exactly the allow phase's result. -/
theorem c2_amended_witness :
    authorizeMap stX ⟨[["z"]], [["x"]], none⟩ = .error (some "x")
    ∧ authorizeMap stX ⟨[], [["x"], ["y"]], none⟩
        = resolveOnlyStatePermissionMap stX ⟨[], [["x"], ["y"]], none⟩ :=
  ⟨c2_amended.1 stX ["x"] [] [["z"]] none "x" (by decide) (by intro g hg; cases hg),
   c2_amended.2 stX ⟨[], [["x"], ["y"]], none⟩ ["y"] (some "y")
     (by simp) (by decide)⟩

/-- C5: an empty group sequence evaluates to the single promise
`$q.reject()` — a failure carrying no matched name — so with empty
`except` the deny phase falls through, and with empty `only` the allow
phase resolves: `authorize` accepts for every store. -/
theorem c5_empty_policy_accepts :
    (∀ st : Stores, qAllSeq (resolveStatePermissionMap st []) = .error none)
    ∧ ∀ (st : Stores) (rt : Option RedirectDict), authorizeMap st ⟨[], [], rt⟩ = .ok none :=
  ⟨fun _ => rfl, fun _ _ => rfl⟩

/-- C9: in the promise chain built by `resolveStatePermissionMap`, the
per-name validation checks of group `i + 1` start exactly when group `i`
has fully settled, and every group settles no earlier than it starts —
for *every* assignment of within-group validation settle times, so the
cross-group order is deterministic. -/
theorem c9_sequential_groups (st : Stores) (groups : List (List Name)) (t i : Nat)
    (h : i + 1 < groups.length) :
    ((groupSchedule st groups t)[i + 1]?).map Prod.fst
      = ((groupSchedule st groups t)[i]?).map Prod.snd
    ∧ ∃ s e, (groupSchedule st groups t)[i]? = some (s, e) ∧ s ≤ e := by
  induction groups generalizing t i with
  | nil => simp at h
  | cons g gs ih =>
      cases i with
      | zero =>
          cases gs with
          | nil => simp at h
          | cons g' gs' =>
              refine ⟨?_, t, t + (qAny (resolvePropertyValidity st g)).time, ?_, Nat.le_add_right _ _⟩
              · simp [groupSchedule]
              · simp [groupSchedule]
      | succ j =>
          have hj : j + 1 < gs.length := by simpa using h
          have := ih (t + (qAny (resolvePropertyValidity st g)).time) j hj
          simpa [groupSchedule] using this

/-- C9 witness: the schedule of two singleton groups under `stNone`. -/
theorem c9_sequential_groups_witness :
    ((groupSchedule stNone [["a"], ["b"]] 0)[0 + 1]?).map Prod.fst
      = ((groupSchedule stNone [["a"], ["b"]] 0)[0]?).map Prod.snd
    ∧ ∃ s e, (groupSchedule stNone [["a"], ["b"]] 0)[0]? = some (s, e) ∧ s ≤ e :=
  c9_sequential_groups stNone [["a"], ["b"]] 0 0 (by decide)

/-- C6: for every checked name, the role store is consulted first and
takes precedence when the name is registered in both stores; a name in
neither store yields an in-list, immediately settled rejection carrying
exactly that name (never a thrown error) and is logged among the
unregistered-name warnings. -/
theorem c6_store_precedence (st : Stores) (p : List Name) (i : Nat) (h : i < p.length) :
    (st.hasRoleDefinition p[i] = true →
        (resolvePropertyValidity st p)[i]? = some (st.validateRole p[i]))
    ∧ (st.hasRoleDefinition p[i] = false → st.hasPermissionDefinition p[i] = true →
        (resolvePropertyValidity st p)[i]? = some (st.validatePermission p[i]))
    ∧ (st.hasRoleDefinition p[i] = false → st.hasPermissionDefinition p[i] = false →
        (resolvePropertyValidity st p)[i]? = some ⟨0, .error (some p[i])⟩
        ∧ p[i] ∈ unregisteredWarnings st p) := by
  have hbase : (resolvePropertyValidity st p)[i]?
      = some (if st.hasRoleDefinition p[i] then st.validateRole p[i]
          else if st.hasPermissionDefinition p[i] then st.validatePermission p[i]
          else ⟨0, .error (some p[i])⟩) := by
    simp [resolvePropertyValidity, List.getElem?_map, List.getElem?_eq_getElem h]
  refine ⟨fun h1 => ?_, fun h1 h2 => ?_, fun h1 h2 => ⟨?_, ?_⟩⟩
  · simpa [h1] using hbase
  · simpa [h1, h2] using hbase
  · simpa [h1, h2] using hbase
  · simp only [unregisteredWarnings, List.mem_filter]
    exact ⟨List.getElem_mem h, by simp [h1, h2]⟩

/-- C6 witness: under `stX` the name `"x"` is a registered role. -/
theorem c6_store_precedence_witness :
    (stX.hasRoleDefinition "x" = true →
        (resolvePropertyValidity stX ["x"])[0]? = some (stX.validateRole "x"))
    ∧ (stX.hasRoleDefinition "x" = false → stX.hasPermissionDefinition "x" = true →
        (resolvePropertyValidity stX ["x"])[0]? = some (stX.validatePermission "x"))
    ∧ (stX.hasRoleDefinition "x" = false → stX.hasPermissionDefinition "x" = false →
        (resolvePropertyValidity stX ["x"])[0]? = some ⟨0, .error (some "x")⟩
        ∧ "x" ∈ unregisteredWarnings stX ["x"]) :=
  c6_store_precedence stX ["x"] 0 (by decide)

/-- C4, counterexample.  A callable returning the plain string `"admin"`
yields the string itself: the source uses the callable's return value
as-is and does *not* re-normalize it by the string rule (which would
produce the one-element array). -/
theorem c4_counterexample :
    normalizeOnlyAndExceptProperty "t" (.func fun _ => .str "admin") = .str "admin"
    ∧ normalizeOnlyAndExceptProperty "t" (.func fun _ => .str "admin")
        ≠ normalizeOnlyAndExceptProperty "t" (.str "admin") := by
  refine ⟨rfl, ?_⟩
  intro hcontra
  simp [normalizeOnlyAndExceptProperty] at hcontra

/-- C4, amended.  A string becomes the one-element array of that name, an
array is kept as-is (one group, not split), a callable is applied once to
the ambient transition context with its return value used directly (not
re-normalized), and any other input becomes the empty array. -/
theorem c4_amended (t : TransProps) :
    (∀ s, normalizeOnlyAndExceptProperty t (.str s) = .arr [s])
    ∧ (∀ xs, normalizeOnlyAndExceptProperty t (.arr xs) = .arr xs)
    ∧ (∀ f, normalizeOnlyAndExceptProperty t (.func f) = f t)
    ∧ normalizeOnlyAndExceptProperty t .other = .arr [] :=
  ⟨fun _ => rfl, fun _ => rfl, fun _ => rfl, rfl⟩

/-- C3: evaluation of `resolveRedirectState` on a map whose `redirectTo`
was absent.  The absent input is *not* normalized to an empty dictionary
— `normalizeRedirectToProperty` passes `undefined` through — and the
subsequent property read in `resolveRedirectState` then throws a
`TypeError` instead of returning the rejected promise the source's own
comment ("If redirectTo definition is not found stay where you are")
promises; an actually-empty dictionary does take the graceful rejection
path. -/
theorem c3_absent_redirect_crash :
    normalizeRedirectToProperty [] JsV.undefinedV = .ok (none, [])
    ∧ resolveRedirectState [] none "admin" "t" = .thrownTypeError
    ∧ resolveRedirectState [] (some []) "admin" "t" = .rejectedQ :=
  ⟨rfl, rfl, rfl⟩

/-- C7: an object `redirectTo` defining neither a `state` nor a `default`
field fails construction with the configuration error, while the string,
single-target-object, callable, and per-privilege-dictionary shapes all
normalize successfully. -/
theorem c7_redirectTo_shapes :
    (∀ (h : Heap) (fields : List (String × JsV)),
        isDefJs (jsGet fields "state") = false → isDefJs (jsGet fields "default") = false →
        normalizeRedirectToProperty h (.obj fields) = .error .mustDefineDefault)
    ∧ (∀ (h : Heap) (s : String),
        ∃ d h', normalizeRedirectToProperty h (.str s) = .ok (some d, h'))
    ∧ (∀ (h : Heap) (a : Nat),
        ∃ d h', normalizeRedirectToProperty h (.funcRef a) = .ok (some d, h'))
    ∧ (∀ (h : Heap) (fields : List (String × JsV)),
        isDefJs (jsGet fields "state") = true →
        ∃ d h', normalizeRedirectToProperty h (.obj fields) = .ok (some d, h'))
    ∧ (∀ (h : Heap) (fields : List (String × JsV)),
        isDefJs (jsGet fields "state") = false → isDefJs (jsGet fields "default") = true →
        ∃ d h', normalizeRedirectToProperty h (.obj fields) = .ok (some d, h')) := by
  refine ⟨fun h fields h1 h2 => ?_, fun h s => ?_, fun h a => ?_,
    fun h fields h1 => ?_, fun h fields h1 h2 => ?_⟩
  · simp [normalizeRedirectToProperty, h1, h2]
  · exact ⟨_, _, rfl⟩
  · rcases he : normalizeFunctionRedirectionRule h a with ⟨d, h'⟩
    exact ⟨d, h', by simp [normalizeRedirectToProperty, he]⟩
  · rcases he : normalizeObjectSingleRedirectionRule h fields with ⟨d, h'⟩
    exact ⟨d, h', by simp [normalizeRedirectToProperty, h1, he]⟩
  · rcases he : normalizeObjectMultipleRedirectionRule h fields with ⟨d, h'⟩
    exact ⟨d, h', by simp [normalizeRedirectToProperty, h1, h2, he]⟩

/-- C7 witness: the spec's own example `redirectTo: {admin: "dashboard"}`
(no `default`, no `state`) is a configuration error, while the string
shape `"login"` succeeds. -/
theorem c7_redirectTo_shapes_witness :
    normalizeRedirectToProperty [] (.obj [("admin", JsV.str "dashboard")])
      = .error .mustDefineDefault
    ∧ ∃ d h', normalizeRedirectToProperty [] (JsV.str "login") = .ok (some d, h') :=
  ⟨c7_redirectTo_shapes.1 [] [("admin", JsV.str "dashboard")] (by decide) (by decide),
   c7_redirectTo_shapes.2.1 [] "login"⟩

/-- C10: normalizing a plain (non-injectable) function `redirectTo` —
directly (shape 3) or as a function-valued entry of a `default`-keyed
dictionary (shape 4) — stores the caller's function object itself under
the resulting key and attaches `$inject` to that very object in place:
afterwards the caller's heap cell carries the annotation, and every other
heap cell is untouched (no allocation, no other visible modification). -/
theorem c10_inject_mutation (h : Heap) (a : Nat) (f : FuncObj)
    (hget : h[a]? = some f) (hinj : f.inject = none) :
    normalizeRedirectToProperty h (.funcRef a)
      = .ok (some [("default", a)],
          h.set a { f with inject := some ["rejectedPermission", "transitionProperties"] })
    ∧ normalizeRedirectToProperty h (.obj [("default", .funcRef a)])
      = .ok (some [("default", a)],
          h.set a { f with inject := some ["rejectedPermission", "transitionProperties"] })
    ∧ (∀ b, b ≠ a →
        (h.set a { f with inject := some ["rejectedPermission", "transitionProperties"] })[b]?
          = h[b]?)
    ∧ (h.set a { f with inject := some ["rejectedPermission", "transitionProperties"] }).length
      = h.length := by
  have hni : isInjectable h (.funcRef a) = false := by
    simp [isInjectable, hget, hinj]
  have hset : setInject h a
      = h.set a { f with inject := some ["rejectedPermission", "transitionProperties"] } := by
    simp [setInject, hget]
  refine ⟨?_, ?_, fun b hb => ?_, List.length_set h a _⟩
  · simp [normalizeRedirectToProperty, normalizeFunctionRedirectionRule, hni, hset]
  · simp [normalizeRedirectToProperty, jsGet, isDefJs,
      normalizeObjectMultipleRedirectionRule, setKey, hni, hset, List.find?]
  · exact List.getElem?_set_ne (fun hc => hb hc.symm)

theorem aLookup_cons (p : String × Nat) (d : RedirectDict) (k : String) :
    aLookup (p :: d) k = if p.1 = k then some p.2 else aLookup d k := by
  by_cases hpk : p.1 = k <;> simp [aLookup, List.find?_cons, hpk]

theorem aLookup_setKey (d : RedirectDict) (kv : String × Nat) (k : String) :
    aLookup (setKey d kv) k = if k = kv.1 then some kv.2 else aLookup d k := by
  induction d with
  | nil =>
      by_cases hk : k = kv.1
      · simp [setKey, aLookup_cons, aLookup, hk]
      · have h1 : ¬kv.1 = k := fun h => hk h.symm
        simp [setKey, aLookup_cons, aLookup, h1, hk]
  | cons p rest ih =>
      by_cases hp : p.1 = kv.1
      · by_cases hk : k = kv.1
        · simp [setKey, hp, aLookup_cons, hk]
        · have h1 : ¬kv.1 = k := fun h => hk h.symm
          have h2 : ¬p.1 = k := fun h => hk (hp.symm.trans h).symm
          simp [setKey, hp, aLookup_cons, h1, h2, hk]
      · by_cases hk : k = kv.1
        · subst hk
          simp [setKey, hp, aLookup_cons, ih]
        · simp [setKey, hp, aLookup_cons, ih, hk]

theorem aLookup_aExtend (dst src : RedirectDict) (k : String)
    (hnd : (src.map Prod.fst).Nodup) :
    aLookup (aExtend dst src) k
      = match aLookup src k with
        | some v => some v
        | none => aLookup dst k := by
  induction src generalizing dst with
  | nil => simp [aExtend, aLookup]
  | cons p rest ih =>
      rw [List.map_cons, List.nodup_cons] at hnd
      obtain ⟨hmem, hnd'⟩ := hnd
      have hstep : aExtend dst (p :: rest) = aExtend (setKey dst p) rest := rfl
      rw [hstep, ih (setKey dst p) hnd']
      by_cases hk : k = p.1
      · subst hk
        have hrest : aLookup rest p.1 = none := by
          cases hfind : List.find? (fun q => decide (q.1 = p.1)) rest with
          | none => simp [aLookup, hfind]
          | some q =>
              exfalso
              have hq : q.1 = p.1 := by simpa using List.find?_some hfind
              have hqmem : q ∈ rest := List.mem_of_find?_eq_some hfind
              exact hmem (hq ▸ List.mem_map_of_mem Prod.fst hqmem)
        simp [hrest, aLookup_cons, aLookup_setKey]
      · have hpk : ¬p.1 = k := fun h => hk h.symm
        cases hr : aLookup rest k with
        | none => simp [hr, aLookup_cons, hpk, aLookup_setKey, hk]
        | some v => simp [hr, aLookup_cons, hpk, aLookup_setKey, hk]

/-- C8: `extendPermissionMap` appends the extending map's non-empty
`only` / `except` name list as one further group, after the groups already
accumulated (ancestors' groups first, relative order preserved), and
shallow-merges the redirect dictionaries so that the later (more specific)
map's entry wins per key; composing parent `{only: ["A"]}` with child
`{only: ["B"]}` yields exactly the two-group allow sequence
`[["A"], ["B"]]`. -/
theorem c8_extend_concat_and_merge :
    (∀ (s : StateMap) (pm : BaseMap), pm.only ≠ [] →
        (extendPermissionMap s pm).only = s.only ++ [pm.only])
    ∧ (∀ (s : StateMap) (pm : BaseMap), pm.except ≠ [] →
        (extendPermissionMap s pm).except = s.except ++ [pm.except])
    ∧ (∀ (s : StateMap) (pm : BaseMap) (d : RedirectDict) (k : String),
        pm.redirectTo = some d → (d.map Prod.fst).Nodup →
        ∃ d', (extendPermissionMap s pm).redirectTo = some d'
          ∧ aLookup d' k
              = match aLookup d k with
                | some v => some v
                | none => aLookup (s.redirectTo.getD []) k)
    ∧ (buildStatePermissionMap [⟨["A"], [], none⟩, ⟨["B"], [], none⟩]).only
        = [["A"], ["B"]] := by
  refine ⟨fun s pm h => ?_, fun s pm h => ?_, fun s pm d k hd hnd => ?_, by decide⟩
  · simp [extendPermissionMap, h]
  · simp [extendPermissionMap, h]
  · exact ⟨aExtend (s.redirectTo.getD []) d, by simp [extendPermissionMap, hd],
      aLookup_aExtend (s.redirectTo.getD []) d k hnd⟩

/-- C8 witness: extending a map that already holds the parent group
`["A"]` with a child map `{only: ["B"], redirectTo: {default: 0, admin: 1}}`
over a previous redirect dictionary `{default: 2}`. -/
theorem c8_extend_concat_and_merge_witness :
    (extendPermissionMap ⟨[["A"]], [], some [("default", 2)]⟩
        ⟨["B"], [], some [("default", 0), ("admin", 1)]⟩).only = [["A"]] ++ [["B"]]
    ∧ ∃ d', (extendPermissionMap ⟨[["A"]], [], some [("default", 2)]⟩
        ⟨["B"], [], some [("default", 0), ("admin", 1)]⟩).redirectTo = some d'
      ∧ aLookup d' "default"
          = match aLookup [("default", 0), ("admin", 1)] "default" with
            | some v => some v
            | none => aLookup ((some [("default", 2)] : Option RedirectDict).getD []) "default" :=
  ⟨c8_extend_concat_and_merge.1 ⟨[["A"]], [], some [("default", 2)]⟩
      ⟨["B"], [], some [("default", 0), ("admin", 1)]⟩ (by decide),
   c8_extend_concat_and_merge.2.2.1 ⟨[["A"]], [], some [("default", 2)]⟩
      ⟨["B"], [], some [("default", 0), ("admin", 1)]⟩ [("default", 0), ("admin", 1)]
      "default" rfl (by decide)⟩

/-- C10 witness: a one-cell heap holding a plain redirect callable. -/
theorem c10_inject_mutation_witness :
    ([⟨fun _ _ => JsV.str "login", none⟩] : Heap)[0]?
        = some ⟨fun _ _ => JsV.str "login", none⟩
    ∧ normalizeRedirectToProperty [⟨fun _ _ => JsV.str "login", none⟩] (.funcRef 0)
      = .ok (some [("default", 0)],
          ([⟨fun _ _ => JsV.str "login", none⟩] : Heap).set 0
            ⟨fun _ _ => JsV.str "login",
             some ["rejectedPermission", "transitionProperties"]⟩) :=
  ⟨rfl,
   (c10_inject_mutation [⟨fun _ _ => JsV.str "login", none⟩] 0
      ⟨fun _ _ => JsV.str "login", none⟩ rfl rfl).1⟩

end Permission
